import Mathlib

/-!
Verification of the frame scheduler of the Inline-Engine graphics engine.

The development shallowly embeds the scheduler's core algorithms from
`Scheduler.hpp` (`Scheduler::InjectBarriers`, `Scheduler::UpdateResourceStates`,
`Scheduler::CanExecuteParallel`) and the resource-heap operations from
`ResourceHeap.cpp` (`UploadHeap::UploadToResource`,
`CriticalBufferHeap::ReleaseUnderlying`).  Components whose bodies are not part
of the available sources (the schedule builder, the per-frame orchestration and
the lifecycle operations) are modelled from the specification; their doc
comments say so explicitly.
-/

namespace InlineEngine

/-- The `gxapi::eResourceState` enumeration (the states the claims mention). -/
inductive eResourceState where
  | COMMON
  | COPY_SOURCE
  | COPY_DEST
  | RENDER_TARGET
  | DEPTH_READ
  | DEPTH_WRITE
  | SHADER_RESOURCE
  | UNORDERED_ACCESS
  | PRESENT
  deriving DecidableEq, Repr

/-- The `gxapi::ALL_SUBRESOURCES` sentinel (an `unsigned` value, 0xffffffff). -/
def ALL_SUBRESOURCES : Nat := 4294967295

/-- A `MemoryObject`: pointer-equivalent identity plus its subresource count
(`GetNumSubresources`). -/
structure MemoryObject where
  id : Nat
  numSubresources : Nat
  deriving DecidableEq, Repr

/-- The usage-record value type consumed by the scheduler's templates:
`resource`, `subresource` (index or `ALL_SUBRESOURCES`), `firstState`,
`lastState`, `multipleUse`. -/
structure UsedResource where
  resource : MemoryObject
  subresource : Nat
  firstState : eResourceState
  lastState : eResourceState
  multipleUse : Bool
  deriving DecidableEq, Repr

/-- A `gxapi::TransitionBarrier`: resource identity, before/after states and the
subresource index. -/
structure ResourceBarrier where
  resource : Nat
  beforeState : eResourceState
  afterState : eResourceState
  subresource : Nat
  deriving DecidableEq, Repr

/-- The CPU-side shadow resource-state table: `(resource identity, subresource
index) → state`.  In the source the states live inside each `MemoryObject`
(`ReadState` / `RecordState`); the table is that storage viewed globally. -/
def StateTable : Type := Nat → Nat → eResourceState

/-- Reading one entry of the table (`MemoryObject::ReadState`). -/
def ReadState (S : StateTable) (r k : Nat) : eResourceState := S r k

/-- Writing one entry of the table (`MemoryObject::RecordState`). -/
def RecordState (S : StateTable) (r k : Nat) (st : eResourceState) : StateTable :=
  fun r2 k2 => if r2 = r ∧ k2 = k then st else S r2 k2

/-- The barriers `Scheduler::InjectBarriers` emits for a single usage record:
if `subresource` is a specific index, compare the recorded state against
`firstState` and emit one transition barrier on mismatch; if it is
`ALL_SUBRESOURCES`, do the same for every subresource index of the resource. -/
def barriersForUsage (S : StateTable) (u : UsedResource) : List ResourceBarrier :=
  if u.subresource ≠ ALL_SUBRESOURCES then
    if ReadState S u.resource.id u.subresource ≠ u.firstState then
      [⟨u.resource.id, ReadState S u.resource.id u.subresource, u.firstState, u.subresource⟩]
    else []
  else
    (List.range u.resource.numSubresources).filterMap (fun k =>
      if ReadState S u.resource.id k ≠ u.firstState then
        some ⟨u.resource.id, ReadState S u.resource.id k, u.firstState, k⟩
      else none)

/-- `Scheduler::InjectBarriers`: walk the usage records of a command list and
collect all necessary transition barriers. -/
def InjectBarriers (S : StateTable) : List UsedResource → List ResourceBarrier
  | [] => []
  | u :: rest => barriersForUsage S u ++ InjectBarriers S rest

/-- The effect of one usage record in `Scheduler::UpdateResourceStates`:
`RecordState` on every subresource for `ALL_SUBRESOURCES`, on the single named
subresource otherwise. -/
def updateUsage (S : StateTable) (u : UsedResource) : StateTable :=
  if u.subresource = ALL_SUBRESOURCES then
    (List.range u.resource.numSubresources).foldl
      (fun T s => RecordState T u.resource.id s u.lastState) S
  else
    RecordState S u.resource.id u.subresource u.lastState

/-- `Scheduler::UpdateResourceStates`: advance the CPU-side state tracking over
an entire usage list. -/
def UpdateResourceStates (S : StateTable) : List UsedResource → StateTable
  | [] => S
  | u :: rest => UpdateResourceStates (updateUsage S u) rest

/-- `Scheduler::CanExecuteParallel`: the merge walk over two sorted usage
lists.  `MemoryObject::PtrLess`/`PtrGreater` compare resource identities. -/
def CanExecuteParallel : List UsedResource → List UsedResource → Bool
  | [], _ => true
  | _ :: _, [] => true
  | u1 :: r1, u2 :: r2 =>
    if u1.resource.id < u2.resource.id then
      CanExecuteParallel r1 (u2 :: r2)
    else if u2.resource.id < u1.resource.id then
      CanExecuteParallel (u1 :: r1) r2
    else if u1.firstState != u2.firstState || u1.multipleUse || u2.multipleUse then
      false
    else
      CanExecuteParallel r1 r2
  termination_by l1 l2 => l1.length + l2.length

/-- The subresource indices a usage record covers: all indices in
`[0, numSubresources)` for the all-subresources token, the single named index
otherwise. -/
def coveredSubresources (u : UsedResource) : List Nat :=
  if u.subresource = ALL_SUBRESOURCES then List.range u.resource.numSubresources
  else [u.subresource]

/-- Whether a usage record covers the pair `(r, k)`. -/
def covers (u : UsedResource) (r k : Nat) : Bool :=
  u.resource.id == r &&
    (if u.subresource == ALL_SUBRESOURCES then decide (k < u.resource.numSubresources)
     else u.subresource == k)

/-! ### Barrier injection (claim C1) -/

/-- The single-subresource emission function used inside `barriersForUsage`. -/
def emitAt (S : StateTable) (r : Nat) (f : eResourceState) (k : Nat) :
    Option ResourceBarrier :=
  if ReadState S r k ≠ f then some ⟨r, ReadState S r k, f, k⟩ else none

lemma barriersForUsage_eq_filterMap (S : StateTable) (u : UsedResource) :
    barriersForUsage S u =
      (coveredSubresources u).filterMap (emitAt S u.resource.id u.firstState) := by
  unfold barriersForUsage coveredSubresources emitAt
  by_cases h : u.subresource = ALL_SUBRESOURCES
  · simp [h]
  · simp [h, List.filterMap]
    by_cases h2 : ReadState S u.resource.id u.subresource = u.firstState <;> simp [h2]

lemma filter_subres_filterMap (S : StateTable) (r : Nat) (f : eResourceState)
    (l : List Nat) (hl : l.Nodup) (k : Nat) :
    (l.filterMap (emitAt S r f)).filter (fun b => b.subresource == k) =
      if k ∈ l ∧ ReadState S r k ≠ f then [⟨r, ReadState S r k, f, k⟩] else [] := by
  induction l with
  | nil => simp
  | cons j t ih =>
    have hnd := (List.nodup_cons.mp hl)
    by_cases hj : ReadState S r j = f
    · rw [show (j :: t).filterMap (emitAt S r f) = t.filterMap (emitAt S r f) by
        simp [List.filterMap_cons, emitAt, hj]]
      rw [ih hnd.2]
      by_cases hk : k = j
      · subst hk
        simp [hj, hnd.1]
      · simp [List.mem_cons, hk]
    · rw [show (j :: t).filterMap (emitAt S r f) =
          ⟨r, ReadState S r j, f, j⟩ :: t.filterMap (emitAt S r f) by
        simp [List.filterMap_cons, emitAt, hj]]
      by_cases hk : k = j
      · subst hk
        have hmem : ¬ (k ∈ t ∧ ReadState S r k ≠ f) := fun hc => hnd.1 hc.1
        rw [List.filter_cons_of_pos (by simp)]
        rw [ih hnd.2, if_neg hmem, if_pos ⟨List.mem_cons_self k t, hj⟩]
      · rw [List.filter_cons_of_neg (by simp [Ne.symm hk])]
        rw [ih hnd.2]
        simp [List.mem_cons, hk]

lemma coveredSubresources_nodup (u : UsedResource) :
    (coveredSubresources u).Nodup := by
  unfold coveredSubresources
  by_cases h : u.subresource = ALL_SUBRESOURCES <;> simp [h, List.nodup_range]

lemma mem_barriersForUsage (S : StateTable) (u : UsedResource) (b : ResourceBarrier) :
    b ∈ barriersForUsage S u ↔
      b.subresource ∈ coveredSubresources u ∧
      ReadState S u.resource.id b.subresource ≠ u.firstState ∧
      b = ⟨u.resource.id, ReadState S u.resource.id b.subresource, u.firstState,
           b.subresource⟩ := by
  rw [barriersForUsage_eq_filterMap]
  rw [List.mem_filterMap]
  constructor
  · rintro ⟨k, hk, hemit⟩
    unfold emitAt at hemit
    by_cases hne : ReadState S u.resource.id k = u.firstState
    · simp [hne] at hemit
    · rw [if_pos hne] at hemit
      obtain rfl := (Option.some_inj.mp hemit).symm
      exact ⟨hk, hne, rfl⟩
  · rintro ⟨hk, hne, hb⟩
    exact ⟨b.subresource, hk, by unfold emitAt; rw [if_pos hne, hb]⟩

lemma injectBarriers_eq_flatMap (S : StateTable) (us : List UsedResource) :
    InjectBarriers S us = us.flatMap (fun u => barriersForUsage S u) := by
  induction us with
  | nil => rfl
  | cons u rest ih => simp [InjectBarriers, ih]

/-- C1: For every usage list and shadow state table, barrier injection emits,
for each usage `u`, exactly one transition barrier per covered subresource
whose recorded state differs from `u.firstState` (with `from` the recorded
state and `to` equal to `u.firstState`), none for a covered subresource whose
recorded state already equals `u.firstState`, and every emitted barrier has
`from ≠ to`. -/
theorem injectBarriers_correct (S : StateTable) (us : List UsedResource) :
    InjectBarriers S us = us.flatMap (fun u => barriersForUsage S u) ∧
    (∀ u ∈ us, ∀ k,
      (barriersForUsage S u).filter (fun b => b.subresource == k) =
        if k ∈ coveredSubresources u ∧ ReadState S u.resource.id k ≠ u.firstState
        then [⟨u.resource.id, ReadState S u.resource.id k, u.firstState, k⟩]
        else []) ∧
    (∀ b ∈ InjectBarriers S us, ∃ u ∈ us,
      b.resource = u.resource.id ∧
      b.subresource ∈ coveredSubresources u ∧
      b.beforeState = ReadState S u.resource.id b.subresource ∧
      b.afterState = u.firstState ∧
      b.beforeState ≠ b.afterState) := by
  refine ⟨injectBarriers_eq_flatMap S us, ?_, ?_⟩
  · intro u _ k
    rw [barriersForUsage_eq_filterMap]
    exact filter_subres_filterMap S u.resource.id u.firstState
      (coveredSubresources u) (coveredSubresources_nodup u) k
  · intro b hb
    rw [injectBarriers_eq_flatMap, List.mem_flatMap] at hb
    obtain ⟨u, hu, hbu⟩ := hb
    rw [mem_barriersForUsage] at hbu
    obtain ⟨hk, hne, hshape⟩ := hbu
    refine ⟨u, hu, ?_, hk, ?_, ?_, ?_⟩
    · rw [hshape]
    · rw [hshape]
    · rw [hshape]
    · rw [hshape]
      simpa using hne

/-! ### Advancing the resource-state table (claim C2) -/

lemma foldl_recordState (S : StateTable) (rid : Nat) (st : eResourceState)
    (N r k : Nat) :
    ((List.range N).foldl (fun T s => RecordState T rid s st) S) r k =
      if r = rid ∧ k < N then st else S r k := by
  induction N with
  | zero => simp
  | succ n ih =>
    rw [List.range_succ, List.foldl_append]
    simp only [List.foldl_cons, List.foldl_nil]
    show (if r = rid ∧ k = n then st
          else ((List.range n).foldl (fun T s => RecordState T rid s st) S) r k) =
         if r = rid ∧ k < n + 1 then st else S r k
    rw [ih]
    by_cases hr : r = rid
    · by_cases hn : k = n
      · simp [hr, hn]
      · by_cases hlt : k < n
        · simp [hr, hn, hlt, Nat.lt_succ_of_lt hlt]
        · have : ¬ k < n + 1 := by omega
          simp [hr, hn, hlt, this]
    · simp [hr]

lemma covers_all_iff (u : UsedResource) (r k : Nat)
    (h : u.subresource = ALL_SUBRESOURCES) :
    covers u r k = true ↔ (r = u.resource.id ∧ k < u.resource.numSubresources) := by
  unfold covers
  rw [if_pos (beq_iff_eq.mpr h)]
  simp only [Bool.and_eq_true, beq_iff_eq, decide_eq_true_eq]
  exact and_congr_left (fun _ => eq_comm)

lemma covers_single_iff (u : UsedResource) (r k : Nat)
    (h : ¬ u.subresource = ALL_SUBRESOURCES) :
    covers u r k = true ↔ (r = u.resource.id ∧ k = u.subresource) := by
  unfold covers
  rw [if_neg (fun hb => h (beq_iff_eq.mp hb))]
  simp only [Bool.and_eq_true, beq_iff_eq]
  exact and_congr eq_comm eq_comm

lemma updateUsage_eval (S : StateTable) (u : UsedResource) (r k : Nat) :
    updateUsage S u r k = if covers u r k then u.lastState else S r k := by
  unfold updateUsage
  by_cases h : u.subresource = ALL_SUBRESOURCES
  · rw [if_pos h]
    rw [show ((List.range u.resource.numSubresources).foldl
        (fun T s => RecordState T u.resource.id s u.lastState) S) r k =
        if r = u.resource.id ∧ k < u.resource.numSubresources then u.lastState
        else S r k from foldl_recordState S u.resource.id u.lastState
          u.resource.numSubresources r k]
    by_cases hcase : r = u.resource.id ∧ k < u.resource.numSubresources
    · rw [if_pos hcase, if_pos ((covers_all_iff u r k h).mpr hcase)]
    · rw [if_neg hcase, if_neg (fun hcc => hcase ((covers_all_iff u r k h).mp hcc))]
  · rw [if_neg h]
    show (if r = u.resource.id ∧ k = u.subresource then u.lastState else S r k) = _
    by_cases hcase : r = u.resource.id ∧ k = u.subresource
    · rw [if_pos hcase, if_pos ((covers_single_iff u r k h).mpr hcase)]
    · rw [if_neg hcase, if_neg (fun hcc => hcase ((covers_single_iff u r k h).mp hcc))]

/-- C2: Advancing the resource-state table over a task's usage list sets
exactly the covered `(resource, subresource)` pairs to a covering record's
`lastState` and leaves every uncovered pair unchanged. -/
theorem updateResourceStates_correct (S : StateTable) (us : List UsedResource)
    (r k : Nat) :
    ((∀ u ∈ us, covers u r k = false) → UpdateResourceStates S us r k = S r k) ∧
    ((∃ u ∈ us, covers u r k = true) →
      ∃ u ∈ us, covers u r k = true ∧ UpdateResourceStates S us r k = u.lastState) := by
  induction us generalizing S with
  | nil =>
    refine ⟨fun _ => rfl, ?_⟩
    rintro ⟨u, hu, -⟩
    exact absurd hu (List.not_mem_nil u)
  | cons u rest ih =>
    constructor
    · intro h
      show UpdateResourceStates (updateUsage S u) rest r k = S r k
      rw [(ih (updateUsage S u)).1 (fun w hw => h w (List.mem_cons_of_mem u hw))]
      rw [updateUsage_eval, if_neg]
      rw [h u (List.mem_cons_self u rest)]
      simp
    · rintro ⟨v, hv, hcov⟩
      show ∃ w ∈ u :: rest, covers w r k = true ∧
        UpdateResourceStates (updateUsage S u) rest r k = w.lastState
      by_cases hrest : ∃ w ∈ rest, covers w r k = true
      · obtain ⟨w, hw, hcw, heq⟩ := (ih (updateUsage S u)).2 hrest
        exact ⟨w, List.mem_cons_of_mem u hw, hcw, heq⟩
      · have hnone : ∀ w ∈ rest, covers w r k = false := by
          intro w hw
          by_contra hc
          exact hrest ⟨w, hw, by simpa using hc⟩
        have hvu : v = u := by
          rcases List.mem_cons.mp hv with h1 | h1
          · exact h1
          · exact absurd hcov (by rw [hnone v h1]; simp)
        refine ⟨u, List.mem_cons_self u rest, hvu ▸ hcov, ?_⟩
        rw [(ih (updateUsage S u)).1 hnone, updateUsage_eval, if_pos (hvu ▸ hcov)]

/-! ### Parallel compatibility (claims C3 and C7) -/

/-- Non-strict sortedness of a usage list by resource identity (what the
specification's `sorted by resource identity` admits). -/
def sortedByResourceId : List UsedResource → Bool
  | [] => true
  | [_] => true
  | u :: v :: rest =>
    decide (u.resource.id ≤ v.resource.id) && sortedByResourceId (v :: rest)

/-- Strict sortedness by resource identity: each resource appears at most once
per list. -/
abbrev strictlySortedByResourceId (l : List UsedResource) : Prop :=
  List.Pairwise (fun a b => a.resource.id < b.resource.id) l

/-- Absence of the conflicts of the spec's merge walk, stated directly over
the two lists. -/
def NoConflict (l1 l2 : List UsedResource) : Prop :=
  ∀ u1 ∈ l1, ∀ u2 ∈ l2, u1.resource.id = u2.resource.id →
    u1.firstState = u2.firstState ∧ u1.multipleUse = false ∧ u2.multipleUse = false

lemma canExec_nil_left (l2 : List UsedResource) :
    CanExecuteParallel [] l2 = true := by
  simp [CanExecuteParallel]

lemma canExec_nil_right (l1 : List UsedResource) :
    CanExecuteParallel l1 [] = true := by
  cases l1 <;> simp [CanExecuteParallel]

lemma canExec_cons (u1 u2 : UsedResource) (r1 r2 : List UsedResource) :
    CanExecuteParallel (u1 :: r1) (u2 :: r2) =
      if u1.resource.id < u2.resource.id then CanExecuteParallel r1 (u2 :: r2)
      else if u2.resource.id < u1.resource.id then CanExecuteParallel (u1 :: r1) r2
      else if u1.firstState != u2.firstState || u1.multipleUse || u2.multipleUse then
        false
      else CanExecuteParallel r1 r2 := by
  rw [CanExecuteParallel]

lemma noConflict_nil_left (l2 : List UsedResource) : NoConflict [] l2 := by
  intro u1 hu1
  exact absurd hu1 (List.not_mem_nil u1)

lemma noConflict_nil_right (l1 : List UsedResource) : NoConflict l1 [] := by
  intro u1 _ u2 hu2
  exact absurd hu2 (List.not_mem_nil u2)

lemma noConflict_cons_left (u1 : UsedResource) (r1 l2 : List UsedResource)
    (h : ∀ v ∈ l2, u1.resource.id ≠ v.resource.id) :
    NoConflict (u1 :: r1) l2 ↔ NoConflict r1 l2 := by
  constructor
  · intro hnc w hw v hv
    exact hnc w (List.mem_cons_of_mem u1 hw) v hv
  · intro hnc w hw v hv heq
    rcases List.mem_cons.mp hw with h1 | h1
    · exact absurd (h1 ▸ heq) (h v hv)
    · exact hnc w h1 v hv heq

lemma noConflict_cons_right (u2 : UsedResource) (l1 r2 : List UsedResource)
    (h : ∀ w ∈ l1, w.resource.id ≠ u2.resource.id) :
    NoConflict l1 (u2 :: r2) ↔ NoConflict l1 r2 := by
  constructor
  · intro hnc w hw v hv
    exact hnc w hw v (List.mem_cons_of_mem u2 hv)
  · intro hnc w hw v hv heq
    rcases List.mem_cons.mp hv with h1 | h1
    · exact absurd (h1 ▸ heq) (h w hw)
    · exact hnc w hw v h1 heq

lemma canExec_iff_aux (n : Nat) : ∀ (l1 l2 : List UsedResource),
    l1.length + l2.length ≤ n →
    strictlySortedByResourceId l1 → strictlySortedByResourceId l2 →
    (CanExecuteParallel l1 l2 = true ↔ NoConflict l1 l2) := by
  induction n with
  | zero =>
    intro l1 l2 hlen _ _
    have h1 : l1 = [] := List.length_eq_zero.mp (by omega)
    subst h1
    rw [canExec_nil_left]
    exact iff_of_true rfl (noConflict_nil_left l2)
  | succ n ih =>
    intro l1 l2 hlen h1 h2
    cases l1 with
    | nil =>
      rw [canExec_nil_left]
      exact iff_of_true rfl (noConflict_nil_left l2)
    | cons u1 r1 =>
      cases l2 with
      | nil =>
        rw [canExec_nil_right]
        exact iff_of_true rfl (noConflict_nil_right (u1 :: r1))
      | cons u2 r2 =>
        obtain ⟨hu1, h1t⟩ := List.pairwise_cons.mp h1
        obtain ⟨hu2, h2t⟩ := List.pairwise_cons.mp h2
        rw [canExec_cons]
        rcases Nat.lt_trichotomy u1.resource.id u2.resource.id with hlt | heq | hgt
        · rw [if_pos hlt]
          rw [ih r1 (u2 :: r2) (by simp at hlen ⊢; omega) h1t h2]
          have hsep : ∀ v ∈ u2 :: r2, u1.resource.id ≠ v.resource.id := by
            intro v hv
            rcases List.mem_cons.mp hv with hv1 | hv1
            · exact hv1 ▸ Nat.ne_of_lt hlt
            · exact Nat.ne_of_lt (Nat.lt_trans hlt (hu2 v hv1))
          exact (noConflict_cons_left u1 r1 (u2 :: r2) hsep).symm
        · rw [if_neg (by omega), if_neg (by omega)]
          by_cases hconf :
              (u1.firstState != u2.firstState || u1.multipleUse || u2.multipleUse) = true
          · rw [if_pos hconf]
            refine iff_of_false (by simp) (fun hnc => ?_)
            obtain ⟨hf, hm1, hm2⟩ :=
              hnc u1 (List.mem_cons_self u1 r1) u2 (List.mem_cons_self u2 r2) heq
            rw [hf, hm1, hm2] at hconf
            simp at hconf
          · rw [if_neg hconf]
            rw [ih r1 r2 (by simp at hlen ⊢; omega) h1t h2t]
            have hfeq : u1.firstState = u2.firstState := by
              by_contra hne
              exact hconf (by simp [hne])
            have hm1 : u1.multipleUse = false := by
              cases hb : u1.multipleUse
              · rfl
              · exact absurd (by simp [hb]) hconf
            have hm2 : u2.multipleUse = false := by
              cases hb : u2.multipleUse
              · rfl
              · exact absurd (by simp [hb]) hconf
            constructor
            · intro hnc w hw v hv heqwv
              rcases List.mem_cons.mp hw with hw1 | hw1
              · rcases List.mem_cons.mp hv with hv1 | hv1
                · subst hw1; subst hv1
                  exact ⟨hfeq, hm1, hm2⟩
                · have : w.resource.id < v.resource.id := hw1 ▸ heq ▸ hu2 v hv1
                  exact absurd heqwv (Nat.ne_of_lt this)
              · rcases List.mem_cons.mp hv with hv1 | hv1
                · have : v.resource.id < w.resource.id := hv1 ▸ heq ▸ (hu1 w hw1)
                  exact absurd heqwv.symm (Nat.ne_of_lt this)
                · exact hnc w hw1 v hv1 heqwv
            · intro hnc w hw v hv heqwv
              exact hnc w (List.mem_cons_of_mem u1 hw) v (List.mem_cons_of_mem u2 hv)
                heqwv
        · rw [if_neg (by omega), if_pos hgt]
          rw [ih (u1 :: r1) r2 (by simp at hlen ⊢; omega) h1 h2t]
          have hsep : ∀ w ∈ u1 :: r1, w.resource.id ≠ u2.resource.id := by
            intro w hw
            rcases List.mem_cons.mp hw with hw1 | hw1
            · exact hw1 ▸ (Nat.ne_of_lt hgt).symm
            · exact fun hc => (Nat.ne_of_lt (Nat.lt_trans hgt (hu1 w hw1))).symm hc
          exact (noConflict_cons_right u2 (u1 :: r1) r2 hsep).symm

/-- The resource shared by the two counterexample usage lists. -/
def cexResource : MemoryObject := ⟨0, 2⟩

/-- Counterexample usage list A: two records of the same resource (two
subresources) with different `firstState`s, non-strictly sorted by resource
identity. -/
def cexListA : List UsedResource :=
  [⟨cexResource, 0, eResourceState.SHADER_RESOURCE, eResourceState.SHADER_RESOURCE, false⟩,
   ⟨cexResource, 1, eResourceState.UNORDERED_ACCESS, eResourceState.UNORDERED_ACCESS, false⟩]

/-- Counterexample usage list B: one record of the shared resource. -/
def cexListB : List UsedResource :=
  [⟨cexResource, 0, eResourceState.SHADER_RESOURCE, eResourceState.SHADER_RESOURCE, false⟩]

/-- C3 counterexample: both lists are sorted by resource identity, they share
a resource with mismatched `firstState` (so the claim says the pair must be
rejected), yet the merge walk declares them parallel-compatible: on an equal
compatible pair it advances both iterators and never inspects list A's second
record of the shared resource. -/
theorem canExecuteParallel_counterexample :
    sortedByResourceId cexListA = true ∧ sortedByResourceId cexListB = true ∧
    CanExecuteParallel cexListA cexListB = true ∧
    ∃ u1 ∈ cexListA, ∃ u2 ∈ cexListB,
      u1.resource.id = u2.resource.id ∧ u1.firstState ≠ u2.firstState := by
  refine ⟨by decide, by decide, ?_, by decide⟩
  simp [CanExecuteParallel, cexListA, cexListB, cexResource]

/-- C3 (amended): with both usage lists *strictly* sorted by resource identity
(each resource appearing at most once per list), the merge walk declares two
tasks parallel-compatible iff no resource present in both lists has differing
`firstState` or `multipleUse` set in either record. -/
theorem canExecuteParallel_iff_noConflict (l1 l2 : List UsedResource)
    (h1 : strictlySortedByResourceId l1) (h2 : strictlySortedByResourceId l2) :
    CanExecuteParallel l1 l2 = true ↔
      ∀ u1 ∈ l1, ∀ u2 ∈ l2, u1.resource.id = u2.resource.id →
        u1.firstState = u2.firstState ∧ u1.multipleUse = false ∧
        u2.multipleUse = false :=
  canExec_iff_aux (l1.length + l2.length) l1 l2 le_rfl h1 h2

lemma canExec_disjoint_aux (n : Nat) : ∀ (l1 l2 : List UsedResource),
    l1.length + l2.length ≤ n →
    (∀ u1 ∈ l1, ∀ u2 ∈ l2, u1.resource.id ≠ u2.resource.id) →
    CanExecuteParallel l1 l2 = true := by
  induction n with
  | zero =>
    intro l1 l2 hlen _
    have h1 : l1 = [] := List.length_eq_zero.mp (by omega)
    subst h1
    exact canExec_nil_left l2
  | succ n ih =>
    intro l1 l2 hlen hdisj
    cases l1 with
    | nil => exact canExec_nil_left l2
    | cons u1 r1 =>
      cases l2 with
      | nil => exact canExec_nil_right (u1 :: r1)
      | cons u2 r2 =>
        rw [canExec_cons]
        have hne : u1.resource.id ≠ u2.resource.id :=
          hdisj u1 (List.mem_cons_self u1 r1) u2 (List.mem_cons_self u2 r2)
        rcases Nat.lt_or_ge u1.resource.id u2.resource.id with hlt | hge
        · rw [if_pos hlt]
          exact ih r1 (u2 :: r2) (by simp at hlen ⊢; omega)
            (fun w hw v hv => hdisj w (List.mem_cons_of_mem u1 hw) v hv)
        · have hgt : u2.resource.id < u1.resource.id :=
            Nat.lt_of_le_of_ne hge (fun hc => hne hc.symm)
          rw [if_neg (by omega), if_pos hgt]
          exact ih (u1 :: r1) r2 (by simp at hlen ⊢; omega)
            (fun w hw v hv => hdisj w hw v (List.mem_cons_of_mem u2 hv))

/-- C7: Two tasks whose usage lists share no resource — in particular when
either list is empty — are always declared parallel-compatible by the merge
walk. -/
theorem canExecuteParallel_disjoint (l1 l2 : List UsedResource) :
    ((∀ u1 ∈ l1, ∀ u2 ∈ l2, u1.resource.id ≠ u2.resource.id) →
      CanExecuteParallel l1 l2 = true) ∧
    CanExecuteParallel ([] : List UsedResource) l2 = true ∧
    CanExecuteParallel l1 ([] : List UsedResource) = true :=
  ⟨fun h => canExec_disjoint_aux (l1.length + l2.length) l1 l2 le_rfl h,
   canExec_nil_left l2, canExec_nil_right l1⟩

/-! ### Schedule builder (claims C4 and C5)

`Scheduler::MakeSchedule` is only declared in the available sources (its body
lives in the engine's implementation file, which is not part of them), so the
schedule builder is modelled from the specification. -/

/-- The ready set: the remaining nodes all of whose DAG predecessors have
already been emitted. -/
def readyNodes (edges : List (Nat × Nat)) (done remaining : List Nat) : List Nat :=
  remaining.filter (fun n => edges.all (fun e => e.2 != n || done.contains e.1))

/-- The least node identity of a list (the deterministic tie-break). -/
def leastOf : List Nat → Option Nat
  | [] => none
  | x :: xs =>
    match leastOf xs with
    | none => some x
    | some m => some (if x ≤ m then x else m)

/-- Modelled from the spec: the loop of `Scheduler::MakeSchedule` (whose body
is missing from the available sources), a Kahn-style topological ordering that
repeatedly emits the ready node with the lowest node identity.  The fuel
argument bounds the number of iterations by the node count. -/
def kahnLoop (edges : List (Nat × Nat)) : Nat → List Nat → List Nat → List Nat
  | 0, done, _ => done
  | fuel + 1, done, remaining =>
    match leastOf (readyNodes edges done remaining) with
    | none => done
    | some n => kahnLoop edges fuel (done ++ [n]) (remaining.erase n)

/-- Modelled from the spec: `Scheduler::MakeSchedule` — topologically order
the pipeline DAG, deterministically, ties among ready nodes broken by lowest
stable node identity. -/
def MakeSchedule (nodes : List Nat) (edges : List (Nat × Nat)) : List Nat :=
  kahnLoop edges nodes.length [] nodes

/-- Acyclicity of the pipeline DAG in the form Kahn's algorithm consumes:
every nonempty subset of the nodes contains a node with no predecessor inside
that subset. -/
def IsDag (nodes : List Nat) (edges : List (Nat × Nat)) : Bool :=
  nodes.sublists.all (fun R =>
    R.isEmpty || R.any (fun n => edges.all (fun e => e.2 != n || !(R.contains e.1))))

lemma leastOf_eq_none : ∀ (l : List Nat), leastOf l = none ↔ l = [] := by
  intro l
  cases l with
  | nil => simp [leastOf]
  | cons x xs =>
    unfold leastOf
    cases leastOf xs <;> simp

lemma leastOf_mem : ∀ (l : List Nat) (n : Nat), leastOf l = some n → n ∈ l := by
  intro l
  induction l with
  | nil => intro n h; exact absurd h (by simp [leastOf])
  | cons x xs ih =>
    intro n h
    unfold leastOf at h
    cases hx : leastOf xs with
    | none =>
      rw [hx] at h
      exact (Option.some_inj.mp h) ▸ List.mem_cons_self x xs
    | some m =>
      rw [hx] at h
      obtain rfl := Option.some_inj.mp h
      by_cases hle : x ≤ m
      · rw [if_pos hle]
        exact List.mem_cons_self x xs
      · rw [if_neg hle]
        exact List.mem_cons_of_mem x (ih m hx)

lemma leastOf_le : ∀ (l : List Nat) (n : Nat), leastOf l = some n →
    ∀ m ∈ l, n ≤ m := by
  intro l
  induction l with
  | nil => intro n _ m hm; exact absurd hm (List.not_mem_nil m)
  | cons x xs ih =>
    intro n h m hm
    unfold leastOf at h
    cases hx : leastOf xs with
    | none =>
      rw [hx] at h
      obtain rfl := Option.some_inj.mp h
      have hxs : xs = [] := (leastOf_eq_none xs).mp hx
      subst hxs
      have : m = x := by simpa using hm
      omega
    | some k =>
      rw [hx] at h
      obtain rfl := Option.some_inj.mp h
      rcases List.mem_cons.mp hm with h1 | h1
      · rw [h1]
        split <;> omega
      · have hk := ih k hx m h1
        split <;> omega

lemma leastOf_isSome (l : List Nat) (h : l ≠ []) : ∃ n, leastOf l = some n := by
  cases l with
  | nil => exact absurd rfl h
  | cons x xs =>
    unfold leastOf
    cases leastOf xs with
    | none => exact ⟨x, rfl⟩
    | some m => exact ⟨if x ≤ m then x else m, rfl⟩

/-- A schedule respects the DAG edges: every occurrence of an edge's target is
preceded by the edge's source. -/
def precedesOK (edges : List (Nat × Nat)) (sched : List Nat) : Prop :=
  ∀ e ∈ edges, ∀ l1 l2, sched = l1 ++ e.2 :: l2 → e.1 ∈ l1

lemma append_singleton_split (n b : Nat) : ∀ (done l1 l2 : List Nat),
    done ++ [n] = l1 ++ b :: l2 →
    (∃ l2', done = l1 ++ b :: l2' ∧ l2 = l2' ++ [n]) ∨
    (l1 = done ∧ b = n ∧ l2 = []) := by
  intro done
  induction done with
  | nil =>
    intro l1 l2 h
    cases l1 with
    | nil =>
      simp only [List.nil_append] at h
      injection h with h1 h2
      exact Or.inr ⟨rfl, h1.symm, h2.symm⟩
    | cons y ys =>
      simp only [List.nil_append, List.cons_append] at h
      injection h with h1 h2
      exact absurd h2.symm (by simp)
  | cons d ds ih =>
    intro l1 l2 h
    cases l1 with
    | nil =>
      simp only [List.cons_append, List.nil_append] at h
      injection h with h1 h2
      exact Or.inl ⟨ds, by simp [h1], h2.symm⟩
    | cons y ys =>
      simp only [List.cons_append] at h
      injection h with h1 h2
      rcases ih ys l2 h2 with ⟨l2', hd, hl⟩ | ⟨hys, hb, hl2⟩
      · exact Or.inl ⟨l2', by simp [h1, hd], hl⟩
      · exact Or.inr ⟨by rw [h1, hys], hb, hl2⟩

lemma ready_spec (edges : List (Nat × Nat)) (done remaining : List Nat) (n : Nat)
    (h : n ∈ readyNodes edges done remaining) :
    n ∈ remaining ∧ ∀ e ∈ edges, e.2 = n → e.1 ∈ done := by
  unfold readyNodes at h
  have h1 := List.mem_filter.mp h
  refine ⟨h1.1, ?_⟩
  intro e he he2
  have hall := List.all_eq_true.mp h1.2 e he
  have hall2 : e.2 ≠ n ∨ e.1 ∈ done := by simpa using hall
  rcases hall2 with hb | hb
  · exact absurd he2 hb
  · exact hb

lemma kahnLoop_respects (edges : List (Nat × Nat)) :
    ∀ (fuel : Nat) (done remaining : List Nat),
      precedesOK edges done → precedesOK edges (kahnLoop edges fuel done remaining) := by
  intro fuel
  induction fuel with
  | zero => intro done remaining h; exact h
  | succ f ih =>
    intro done remaining h
    unfold kahnLoop
    cases hl : leastOf (readyNodes edges done remaining) with
    | none => exact h
    | some n =>
      apply ih
      intro e he l1 l2 hsplit
      rcases append_singleton_split n e.2 done l1 l2 hsplit with ⟨l2', hd, -⟩ | ⟨hl1, hb, -⟩
      · exact h e he l1 l2' hd
      · rw [hl1]
        exact (ready_spec edges done remaining n (leastOf_mem _ n hl)).2 e he hb

lemma kahnLoop_perm (edges : List (Nat × Nat)) (nodes : List Nat)
    (hwf : ∀ e ∈ edges, e.1 ∈ nodes ∧ e.2 ∈ nodes)
    (hdag : IsDag nodes edges = true) :
    ∀ (fuel : Nat) (done remaining : List Nat),
      remaining.length ≤ fuel → remaining.Sublist nodes →
      (done ++ remaining).Perm nodes →
      (kahnLoop edges fuel done remaining).Perm nodes := by
  intro fuel
  induction fuel with
  | zero =>
    intro done remaining hlen _ hperm
    have hnil : remaining = [] := List.length_eq_zero.mp (by omega)
    subst hnil
    simpa using hperm
  | succ f ih =>
    intro done remaining hlen hsub hperm
    unfold kahnLoop
    cases hrem : remaining with
    | nil =>
      subst hrem
      show (match leastOf (readyNodes edges done []) with
            | none => done
            | some n => kahnLoop edges f (done ++ [n]) (List.erase [] n)).Perm nodes
      simp only [readyNodes, List.filter_nil, leastOf]
      simpa using hperm
    | cons x xs =>
      subst hrem
      have hsubl : (x :: xs) ∈ nodes.sublists := List.mem_sublists.mpr hsub
      have hdagR := List.all_eq_true.mp hdag (x :: xs) hsubl
      have hany : (x :: xs).any
          (fun n => edges.all (fun e => e.2 != n || !((x :: xs).contains e.1))) = true := by
        simpa using hdagR
      obtain ⟨n, hn, hnprop⟩ := List.any_eq_true.mp hany
      have hready : n ∈ readyNodes edges done (x :: xs) := by
        unfold readyNodes
        refine List.mem_filter.mpr ⟨hn, List.all_eq_true.mpr ?_⟩
        intro e he
        have hprop := List.all_eq_true.mp hnprop e he
        have hprop2 : e.2 ≠ n ∨ e.1 ∉ (x :: xs) := by simpa using hprop
        rcases hprop2 with hb | hb
        · simp [hb]
        · have h1 : e.1 ∈ nodes := (hwf e he).1
          have h2 : e.1 ∈ done ++ (x :: xs) := hperm.mem_iff.mpr h1
          rcases List.mem_append.mp h2 with hd | hr
          · simp [hd]
          · exact absurd hr hb
      obtain ⟨m, hm⟩ := leastOf_isSome _ (List.ne_nil_of_mem hready)
      rw [hm]
      have hmem := (ready_spec edges done (x :: xs) m (leastOf_mem _ m hm)).1
      apply ih
      · rw [List.length_erase_of_mem hmem]
        simp at hlen ⊢
        omega
      · exact List.Sublist.trans (List.erase_sublist m (x :: xs)) hsub
      · have hp : (x :: xs).Perm (m :: (x :: xs).erase m) := List.perm_cons_erase hmem
        have step1 : (done ++ [m]) ++ ((x :: xs).erase m) =
            done ++ (m :: (x :: xs).erase m) := by simp
        rw [step1]
        exact (List.Perm.append_left done hp.symm).trans hperm

/-- C4 (spec-modelled builder): on a well-formed acyclic pipeline DAG the
produced task sequence is a topological order — it is a permutation of the
node set, and for every edge `A → B` the source `A` appears before every
occurrence of the target `B`, so `A`'s command list is submitted before
`B`'s. -/
theorem makeSchedule_topological (nodes : List Nat) (edges : List (Nat × Nat))
    (hwf : ∀ e ∈ edges, e.1 ∈ nodes ∧ e.2 ∈ nodes)
    (hdag : IsDag nodes edges = true) :
    (MakeSchedule nodes edges).Perm nodes ∧
    ∀ e ∈ edges, ∀ l1 l2, MakeSchedule nodes edges = l1 ++ e.2 :: l2 → e.1 ∈ l1 := by
  constructor
  · exact kahnLoop_perm edges nodes hwf hdag nodes.length [] nodes le_rfl
      (List.Sublist.refl nodes) (by simp)
  · intro e he l1 l2 hsplit
    refine kahnLoop_respects edges nodes.length [] nodes ?_ e he l1 l2 hsplit
    intro e' _ a b hab
    exact absurd hab (by simp)

/-- C5 (spec-modelled builder): the schedule builder is a pure function —
equal DAG inputs give the identical task sequence, barrier injection is
likewise deterministic — and ties among simultaneously ready nodes are broken
by the lowest stable node identity. -/
theorem makeSchedule_deterministic (nodes1 nodes2 : List Nat)
    (edges1 edges2 : List (Nat × Nat)) (hn : nodes1 = nodes2) (he : edges1 = edges2) :
    MakeSchedule nodes1 edges1 = MakeSchedule nodes2 edges2 ∧
    (∀ (S : StateTable) (us : List UsedResource),
      InjectBarriers S us = InjectBarriers S us) ∧
    ∀ done remaining n, leastOf (readyNodes edges1 done remaining) = some n →
      n ∈ readyNodes edges1 done remaining ∧
      ∀ m ∈ readyNodes edges1 done remaining, n ≤ m := by
  subst hn he
  refine ⟨rfl, fun S us => rfl, ?_⟩
  intro done remaining n h
  exact ⟨leastOf_mem _ n h, leastOf_le _ n h⟩

/-! ### Frame execution and the failure screen (claim C6)

`Scheduler::Execute` only chains `ExecuteParallel`/`ExecuteSerial` in the
available sources and `Scheduler::RenderFailureScreen` is only declared, so
the per-frame orchestration is modelled from the specification. -/

/-- The phases of a frame in which a task can throw. -/
inductive Phase where
  | setup
  | record
  | assemble
  | submit
  deriving DecidableEq, Repr

/-- A pipeline task as the frame orchestration sees it: its usage records,
its recorded command list, and the phase in which it throws, if any. -/
structure ModTask where
  usages : List UsedResource
  listId : Nat
  failsIn : Option Phase
  deriving DecidableEq, Repr

/-- One item of the submission stream. -/
inductive SubmitItem where
  | barrierBatch (bs : List ResourceBarrier)
  | commandList (id : Nat)
  | clearBackBuffer (color : Nat)
  deriving DecidableEq, Repr

/-- The outcome of a frame: the submission stream and the resource-state
table afterwards. -/
structure FrameOutput where
  submission : List SubmitItem
  table : StateTable

/-- Modelled from the spec: the assemble/submit walk of
`Scheduler::ExecuteSerial` (missing from the available sources).  Tasks are
walked in schedule order; for each, the injected barrier batch and the task's
command list are appended and the state table advanced; a task throwing in
the assemble or submit phase aborts the walk. -/
def assembleTasks (S : StateTable) : List ModTask → Except Phase (List SubmitItem × StateTable)
  | [] => Except.ok ([], S)
  | t :: ts =>
    if t.failsIn = some Phase.assemble then Except.error Phase.assemble
    else if t.failsIn = some Phase.submit then Except.error Phase.submit
    else
      match assembleTasks (UpdateResourceStates S t.usages) ts with
      | Except.error p => Except.error p
      | Except.ok (items, S2) =>
          Except.ok (SubmitItem.barrierBatch (InjectBarriers S t.usages) ::
                     SubmitItem.commandList t.listId :: items, S2)

/-- Modelled from the spec: `Scheduler::Execute` — run Setup of every task,
then Record, then assemble and submit; any exception aborts the frame,
discards the partially assembled work, records a single minimal command list
clearing the back-buffer to the failure color
(`Scheduler::RenderFailureScreen`, missing from the available sources), and
leaves the resource-state table at its pre-frame snapshot. -/
def ExecuteFrame (failureColor : Nat) (S : StateTable) (tasks : List ModTask) :
    FrameOutput :=
  if tasks.any (fun t => decide (t.failsIn = some Phase.setup)) then
    ⟨[SubmitItem.clearBackBuffer failureColor], S⟩
  else if tasks.any (fun t => decide (t.failsIn = some Phase.record)) then
    ⟨[SubmitItem.clearBackBuffer failureColor], S⟩
  else
    match assembleTasks S tasks with
    | Except.error _ => ⟨[SubmitItem.clearBackBuffer failureColor], S⟩
    | Except.ok (items, S2) => ⟨items, S2⟩

lemma assembleTasks_error (S : StateTable) (tasks : List ModTask)
    (h : ∃ t ∈ tasks, t.failsIn = some Phase.assemble ∨ t.failsIn = some Phase.submit) :
    ∃ p, assembleTasks S tasks = Except.error p := by
  induction tasks generalizing S with
  | nil =>
    obtain ⟨t, ht, -⟩ := h
    exact absurd ht (List.not_mem_nil t)
  | cons t ts ih =>
    unfold assembleTasks
    by_cases ha : t.failsIn = some Phase.assemble
    · exact ⟨Phase.assemble, by rw [if_pos ha]⟩
    · by_cases hs : t.failsIn = some Phase.submit
      · exact ⟨Phase.submit, by rw [if_neg ha, if_pos hs]⟩
      · have hrest : ∃ w ∈ ts, w.failsIn = some Phase.assemble ∨
            w.failsIn = some Phase.submit := by
          obtain ⟨w, hw, hcase⟩ := h
          rcases List.mem_cons.mp hw with h1 | h1
          · subst h1
            rcases hcase with hc | hc
            · exact absurd hc ha
            · exact absurd hc hs
          · exact ⟨w, h1, hcase⟩
        obtain ⟨p, hp⟩ := ih (UpdateResourceStates S t.usages) hrest
        rw [if_neg ha, if_neg hs, hp]
        exact ⟨p, rfl⟩

/-- C6 (spec-modelled orchestration): if any task throws in Setup, Record,
Assemble, or Submit, the frame's output is the single minimal clear-to-
failure-color command list and the resource-state table is exactly the
pre-frame snapshot, untouched by any usage record of the aborted frame. -/
theorem executeFrame_failure_isolation (failureColor : Nat) (S : StateTable)
    (tasks : List ModTask) (h : ∃ t ∈ tasks, t.failsIn ≠ none) :
    ExecuteFrame failureColor S tasks =
      ⟨[SubmitItem.clearBackBuffer failureColor], S⟩ := by
  unfold ExecuteFrame
  by_cases hsetup : tasks.any (fun t => decide (t.failsIn = some Phase.setup)) = true
  · rw [if_pos hsetup]
  · rw [if_neg hsetup]
    by_cases hrecord : tasks.any (fun t => decide (t.failsIn = some Phase.record)) = true
    · rw [if_pos hrecord]
    · rw [if_neg hrecord]
      have hassem : ∃ t ∈ tasks, t.failsIn = some Phase.assemble ∨
          t.failsIn = some Phase.submit := by
        obtain ⟨t, ht, hne⟩ := h
        refine ⟨t, ht, ?_⟩
        cases hf : t.failsIn with
        | none => exact absurd hf hne
        | some p =>
          cases p with
          | setup =>
            exfalso
            exact hsetup (List.any_eq_true.mpr ⟨t, ht, by simp [hf]⟩)
          | record =>
            exfalso
            exact hrecord (List.any_eq_true.mpr ⟨t, ht, by simp [hf]⟩)
          | assemble => exact Or.inl rfl
          | submit => exact Or.inr rfl
      obtain ⟨p, hp⟩ := assembleTasks_error S tasks hassem
      rw [hp]

/-! ### Pipeline and resource lifecycle (claim C8)

`Scheduler::ReleasePipeline` and `Scheduler::ReleaseResources` are only
declared in the available sources, so their busy-frame behavior is modelled
from the specification. -/

/-- The lifecycle errors surfaced by the scheduler. -/
inductive SchedError where
  | PipelineBusy
  deriving DecidableEq, Repr

/-- The scheduler's lifecycle-relevant state: current pipeline nodes, task
resources, and whether a frame is in flight. -/
structure SchedState where
  pipelineNodes : List Nat
  taskResources : List Nat
  frameInFlight : Bool
  deriving DecidableEq, Repr

/-- Modelled from the spec: `Scheduler::ReleasePipeline` — move the pipeline
out, leaving the scheduler with an empty pipeline; fails with `PipelineBusy`
while a frame is in flight, leaving everything unchanged. -/
def ReleasePipeline (s : SchedState) :
    SchedState × Option SchedError × Option (List Nat) :=
  if s.frameInFlight then (s, some SchedError.PipelineBusy, none)
  else ({ s with pipelineNodes := [] }, none, some s.pipelineNodes)

/-- Modelled from the spec: `Scheduler::ReleaseResources` — drop every
per-task transient resource; fails with `PipelineBusy` while a frame is in
flight, leaving everything unchanged. -/
def ReleaseResources (s : SchedState) : SchedState × Option SchedError :=
  if s.frameInFlight then (s, some SchedError.PipelineBusy)
  else ({ s with taskResources := [] }, none)

/-- C8 (spec-modelled lifecycle): during a frame both release operations fail
with `PipelineBusy` and change nothing; outside a frame both succeed,
emptying the pipeline respectively the task resources. -/
theorem release_during_frame_busy (s : SchedState) :
    (s.frameInFlight = true →
      ReleasePipeline s = (s, some SchedError.PipelineBusy, none) ∧
      ReleaseResources s = (s, some SchedError.PipelineBusy)) ∧
    (s.frameInFlight = false →
      (ReleasePipeline s).2.1 = none ∧
      (ReleasePipeline s).1.pipelineNodes = [] ∧
      (ReleasePipeline s).2.2 = some s.pipelineNodes ∧
      (ReleaseResources s).2 = none ∧
      (ReleaseResources s).1.taskResources = []) := by
  constructor
  · intro h
    unfold ReleasePipeline ReleaseResources
    rw [if_pos h, if_pos h]
    exact ⟨rfl, rfl⟩
  · intro h
    unfold ReleasePipeline ReleaseResources
    rw [if_neg (by simp [h]), if_neg (by simp [h])]
    exact ⟨rfl, rfl, rfl, rfl, rfl⟩

/-! ### Upload heap (claim C9), from `ResourceHeap.cpp` -/

/-- A `LinearBuffer` target: identity and `GetSize()`. -/
structure LinearBuffer where
  id : Nat
  size : Nat
  deriving DecidableEq, Repr

/-- A staged upload resource: the staging buffer created in `COPY_DEST`, the
bytes memcpy'd into its mapping, and its residency flag. -/
structure StagedResource where
  bufferSize : Nat
  contents : List Nat
  resident : Bool
  deriving DecidableEq, Repr

/-- The GPU-API exceptions relevant here. -/
inductive GxError where
  | InvalidArgument
  deriving DecidableEq, Repr

/-- A command recorded on the copy command list by `UploadToResource`. -/
inductive CopyCommand where
  | resourceBarrier (b : ResourceBarrier)
  | registerResourceTransition (resId sub : Nat) (st : eResourceState)
  | copyBuffer (dstId dstOffset srcStaged srcOffset size : Nat)
  deriving DecidableEq, Repr

/-- `UploadHeap::UploadToResource`: throw `InvalidArgument` when the target
buffer is smaller than the data; otherwise create a staging buffer in
`COPY_DEST`, append it to the staged-resources list, mark it resident, copy
the data into it, then record the `COPY_DEST → COPY_SOURCE` barrier on the
staging buffer, register the target's transition to `COPY_DEST`, and record
the buffer copy.  The staging resource is identified by its index in the
staged list.  The C++ throw happens before any mutation, which the
state-passing embedding renders by returning the inputs unchanged next to
the error. -/
def UploadToResource (stagedResources : List StagedResource)
    (cmdList : List CopyCommand) (target : LinearBuffer) (data : List Nat) :
    Option GxError × List StagedResource × List CopyCommand :=
  if target.size < data.length then
    (some GxError.InvalidArgument, stagedResources, cmdList)
  else
    (none,
     stagedResources ++ [⟨data.length, data, true⟩],
     cmdList ++
       [CopyCommand.resourceBarrier
          ⟨stagedResources.length, eResourceState.COPY_DEST,
           eResourceState.COPY_SOURCE, ALL_SUBRESOURCES⟩,
        CopyCommand.registerResourceTransition target.id ALL_SUBRESOURCES
          eResourceState.COPY_DEST,
        CopyCommand.copyBuffer target.id 0 stagedResources.length 0 data.length])

/-- C9: `UploadToResource` throws `InvalidArgument` exactly when the target
buffer is smaller than the upload, and in that case it is atomic: the
staged-resources list and the command list are unchanged.  On success it
appends exactly one staged resource and records the barrier, the transition
registration and the copy. -/
theorem uploadToResource_correct (stagedResources : List StagedResource)
    (cmdList : List CopyCommand) (target : LinearBuffer) (data : List Nat) :
    ((UploadToResource stagedResources cmdList target data).1 =
        some GxError.InvalidArgument ↔ target.size < data.length) ∧
    (target.size < data.length →
      UploadToResource stagedResources cmdList target data =
        (some GxError.InvalidArgument, stagedResources, cmdList)) ∧
    (¬ target.size < data.length →
      UploadToResource stagedResources cmdList target data =
        (none,
         stagedResources ++ [⟨data.length, data, true⟩],
         cmdList ++
           [CopyCommand.resourceBarrier
              ⟨stagedResources.length, eResourceState.COPY_DEST,
               eResourceState.COPY_SOURCE, ALL_SUBRESOURCES⟩,
            CopyCommand.registerResourceTransition target.id ALL_SUBRESOURCES
              eResourceState.COPY_DEST,
            CopyCommand.copyBuffer target.id 0 stagedResources.length 0
              data.length])) := by
  unfold UploadToResource
  by_cases h : target.size < data.length
  · rw [if_pos h]
    exact ⟨iff_of_true rfl h, fun _ => rfl, fun hc => absurd h hc⟩
  · rw [if_neg h]
    refine ⟨iff_of_false (by simp) h, fun hc => absurd hc h, fun _ => rfl⟩

/-! ### Critical buffer heap (claim C10), from `ResourceHeap.cpp` -/

/-- The observable state of a `CriticalBufferHeap`: the set of live resources
the commented-out erase would have touched. -/
structure CriticalBufferHeapState where
  resources : List Nat
  deriving DecidableEq, Repr

/-- `CriticalBufferHeap::ReleaseUnderlying`: the body is empty (the erase is
commented out), so the heap state is returned untouched. -/
def ReleaseUnderlying (s : CriticalBufferHeapState) (owner : Nat) :
    CriticalBufferHeapState :=
  s

/-- C10: `ReleaseUnderlying` changes no observable state of the heap for any
argument; in particular no resource is erased from the live set. -/
theorem releaseUnderlying_noop (s : CriticalBufferHeapState) (owner : Nat) :
    ReleaseUnderlying s owner = s ∧
    (ReleaseUnderlying s owner).resources = s.resources :=
  ⟨rfl, rfl⟩

/-! ### Concrete witnesses -/

/-- A shadow table with everything in `COMMON`. -/
def Scommon : StateTable := fun _ _ => eResourceState.COMMON

/-- A usage record covering all four subresources of resource 0, requesting
and leaving `RENDER_TARGET`. -/
def uAll : UsedResource :=
  ⟨⟨0, 4⟩, ALL_SUBRESOURCES, eResourceState.RENDER_TARGET,
   eResourceState.RENDER_TARGET, false⟩

theorem injectBarriers_correct_witness :
    (barriersForUsage Scommon uAll).filter (fun b => b.subresource == 2) =
      [⟨0, eResourceState.COMMON, eResourceState.RENDER_TARGET, 2⟩] := by
  have h := (injectBarriers_correct Scommon [uAll]).2.1 uAll
    (List.mem_singleton_self uAll) 2
  rw [h]
  decide

theorem updateResourceStates_correct_witness :
    UpdateResourceStates Scommon [uAll] 0 1 = eResourceState.RENDER_TARGET ∧
    UpdateResourceStates Scommon [uAll] 5 0 = eResourceState.COMMON := by
  constructor
  · obtain ⟨u, hu, hcov, heq⟩ :=
      (updateResourceStates_correct Scommon [uAll] 0 1).2 (by decide)
    have hu2 : u = uAll := by
      rcases List.mem_cons.mp hu with h1 | h1
      · exact h1
      · exact absurd h1 (List.not_mem_nil u)
    rw [heq, hu2]
    decide
  · exact (updateResourceStates_correct Scommon [uAll] 5 0).1 (by decide)

/-- Witness lists for the amended C3 statement: strictly sorted singletons
sharing resource 1 with mismatched `firstState`. -/
def wl1 : List UsedResource :=
  [⟨⟨1, 1⟩, 0, eResourceState.SHADER_RESOURCE, eResourceState.SHADER_RESOURCE, false⟩]

def wl2 : List UsedResource :=
  [⟨⟨1, 1⟩, 0, eResourceState.UNORDERED_ACCESS, eResourceState.UNORDERED_ACCESS, false⟩]

theorem canExecuteParallel_iff_noConflict_witness :
    CanExecuteParallel wl1 wl2 = false := by
  have h := canExecuteParallel_iff_noConflict wl1 wl2 (by decide) (by decide)
  cases hb : CanExecuteParallel wl1 wl2 with
  | false => rfl
  | true =>
    obtain ⟨hf, -, -⟩ := h.mp hb
      ⟨⟨1, 1⟩, 0, eResourceState.SHADER_RESOURCE, eResourceState.SHADER_RESOURCE, false⟩
      (by decide)
      ⟨⟨1, 1⟩, 0, eResourceState.UNORDERED_ACCESS, eResourceState.UNORDERED_ACCESS, false⟩
      (by decide) (by decide)
    exact absurd hf (by decide)

/-- Witness lists for C7: two usage lists touching disjoint resources. -/
def dl1 : List UsedResource :=
  [⟨⟨1, 1⟩, 0, eResourceState.COMMON, eResourceState.COMMON, true⟩]

def dl2 : List UsedResource :=
  [⟨⟨2, 1⟩, 0, eResourceState.RENDER_TARGET, eResourceState.RENDER_TARGET, true⟩]

theorem canExecuteParallel_disjoint_witness :
    CanExecuteParallel dl1 dl2 = true :=
  (canExecuteParallel_disjoint dl1 dl2).1 (by decide)

theorem makeSchedule_topological_witness :
    (MakeSchedule [0, 1, 2] [(0, 1), (1, 2)]).Perm [0, 1, 2] ∧
    1 ∈ ([0, 1] : List Nat) := by
  have h := makeSchedule_topological [0, 1, 2] [(0, 1), (1, 2)] (by decide) (by decide)
  exact ⟨h.1, h.2 (1, 2) (by decide) [0, 1] [] (by decide)⟩

theorem makeSchedule_deterministic_witness :
    3 ∈ readyNodes [((0 : Nat), (1 : Nat))] [] [5, 3] ∧ 3 ≤ 5 := by
  have h := (makeSchedule_deterministic [0, 1] [0, 1] [(0, 1)] [(0, 1)] rfl rfl).2.2
    [] [5, 3] 3 (by decide)
  exact ⟨h.1, h.2 5 (by decide)⟩

theorem executeFrame_failure_isolation_witness :
    ExecuteFrame 7 Scommon [⟨[], 1, some Phase.record⟩] =
      ⟨[SubmitItem.clearBackBuffer 7], Scommon⟩ :=
  executeFrame_failure_isolation 7 Scommon [⟨[], 1, some Phase.record⟩] (by decide)

theorem release_during_frame_busy_witness :
    ReleasePipeline ⟨[1, 2], [3], true⟩ =
      (⟨[1, 2], [3], true⟩, some SchedError.PipelineBusy, none) ∧
    ReleaseResources ⟨[1, 2], [3], true⟩ =
      (⟨[1, 2], [3], true⟩, some SchedError.PipelineBusy) :=
  (release_during_frame_busy ⟨[1, 2], [3], true⟩).1 rfl

theorem uploadToResource_correct_witness :
    UploadToResource [] [] ⟨7, 1⟩ [10, 20] =
      (some GxError.InvalidArgument, [], []) :=
  (uploadToResource_correct [] [] ⟨7, 1⟩ [10, 20]).2.1 (by decide)

end InlineEngine
